import Mathlib

/-!
Verification of the four-part voicing engine of `voicing.py`.

The development embeds the pitch model, the voicing generator
(`voiceNote`, `_voiceTriadUnordered`, `_voiceChord`, `voiceChord`), the
transition cost model (`cost`) and the dynamic-programming progression
optimizer (`voiceProgression`) as executable Lean definitions, and proves
the stated properties about them.

Modelling conventions:
* music21 `Pitch` objects are represented by a pitch-class name (diatonic
  step plus chromatic alteration) and an octave; music21 compares pitches
  by their pitch-space value `ps`, and `.midi` agrees with `ps` on the
  vocal ranges used here, so both are modelled by `Pitch'.ps`.
* music21 `Chord` objects produced by the generator keep their pitches
  sorted ascending (`Chord.add` re-sorts), so a voiced chord is a record
  of its four pitches in ascending order (bass, tenor, alto, soprano),
  together with the chord descriptor it was generated from; the
  descriptor supplies whatever the cost model reads off the chord through
  music21 analysis (root, third, fifth, seventh of the harmony).
* the external harmony interpreter (music21 `RomanNumeral`/`Key`) is out
  of scope; the optimizer consumes a list of chord descriptors, and a key
  is represented by its tonic and dominant pitch-class names.
* Python's `float('inf')` DP seed is modelled by `none : Option Nat`,
  with the same comparison and addition behaviour.
-/

/-- A pitch-class name: a diatonic step (0=C, 1=D, 2=E, 3=F, 4=G, 5=A, 6=B)
together with a chromatic alteration (sharps positive, flats negative),
mirroring music21 note names such as C, F#, B-. -/
structure NoteName where
  step : Nat
  alter : Int
deriving DecidableEq, Repr

/-- Semitone offset of a diatonic step above C. -/
def stepPc (s : Nat) : Int :=
  match s with
  | 0 => 0
  | 1 => 2
  | 2 => 4
  | 3 => 5
  | 4 => 7
  | 5 => 9
  | 6 => 11
  | _ => 0

/-- Chromatic offset of a pitch-class name above C (B- is 10, B# is 12,
C- is -1). -/
def NoteName.off (n : NoteName) : Int := stepPc n.step + n.alter

/-- music21 `Pitch`: a pitch-class name plus an octave. -/
structure Pitch' where
  name : NoteName
  octave : Int
deriving DecidableEq, Repr

/-- Pitch-space value of a pitch (the midi number for the pitches handled
here): C4 is 60.  music21 orders pitches by this value. -/
def Pitch'.ps (p : Pitch') : Int := p.name.off + 12 * (p.octave + 1)

/-- `SOPRANO_RANGE = (Pitch('C4'), Pitch('G5'))`. -/
def SOPRANO_RANGE : Pitch' × Pitch' := (⟨⟨0, 0⟩, 4⟩, ⟨⟨4, 0⟩, 5⟩)

/-- `ALTO_RANGE = (Pitch('G3'), Pitch('C5'))`. -/
def ALTO_RANGE : Pitch' × Pitch' := (⟨⟨4, 0⟩, 3⟩, ⟨⟨0, 0⟩, 5⟩)

/-- `TENOR_RANGE = (Pitch('C3'), Pitch('G4'))`. -/
def TENOR_RANGE : Pitch' × Pitch' := (⟨⟨0, 0⟩, 3⟩, ⟨⟨4, 0⟩, 4⟩)

/-- `BASS_RANGE = (Pitch('F2'), Pitch('C4'))`. -/
def BASS_RANGE : Pitch' × Pitch' := (⟨⟨3, 0⟩, 2⟩, ⟨⟨0, 0⟩, 4⟩)

/-- `voiceNote(noteName, pitchRange)`: for each octave from the lower
bound's octave to the upper bound's octave, build the pitch of the given
name at that octave and yield it if it lies within the range. -/
def voiceNote (name : NoteName) (pitchRange : Pitch' × Pitch') : List Pitch' :=
  let lowerOctave := pitchRange.1.octave
  let upperOctave := pitchRange.2.octave
  (List.range (upperOctave + 1 - lowerOctave).toNat).filterMap (fun (i : Nat) =>
    let n : Pitch' := ⟨name, lowerOctave + (i : Int)⟩
    if pitchRange.1.ps ≤ n.ps ∧ n.ps ≤ pitchRange.2.ps then some n else none)

/-- Python `max` of a pitch pair (music21 compares by `ps`; on ties `max`
keeps the first element). -/
def pmax (a b : Pitch') : Pitch' := if b.ps > a.ps then b else a

/-- Python `min` of a pitch pair (music21 compares by `ps`; on ties `min`
keeps the first element). -/
def pmin (a b : Pitch') : Pitch' := if b.ps < a.ps then b else a

/-- music21 `transpose('-P8')`: same name, one octave lower. -/
def transposeP8Down (p : Pitch') : Pitch' := ⟨p.name, p.octave - 1⟩

/-- `itertools.permutations(noteNames, 3)` on a three-element list, in
itertools' index order. -/
def perms3 (l : List NoteName) : List (NoteName × NoteName × NoteName) :=
  match l with
  | [x, y, z] =>
    [(x, y, z), (x, z, y), (y, x, z), (y, z, x), (z, x, y), (z, y, x)]
  | _ => []

/-- The chord descriptor produced by the external harmony interpreter:
the chord's pitch-class names in ascending (closed-position) order with
the bass first, the seventh flag, the inversion, the roman-numeral label,
and the named chord members. -/
structure ChordDesc where
  noteNames : List NoteName
  containsSeventh : Bool
  inversion : Nat
  romanNumeral : String
  root : NoteName
  third : NoteName
  fifth : NoteName
  seventh : Option NoteName
deriving DecidableEq, Repr

/-- A voiced four-part chord: the four pitches in ascending order (the
order music21 keeps them in after `Chord.add` re-sorts), plus the
descriptor the voicing was generated from. -/
structure VChord where
  bass : Pitch'
  tenor : Pitch'
  alto : Pitch'
  soprano : Pitch'
  desc : ChordDesc
deriving DecidableEq, Repr

/-- `_voiceTriadUnordered(noteNames)`: assign the three names to
tenor/alto/soprano by every permutation; enumerate the soprano over its
range, then the alto within `[max(ALTO_RANGE[0], soprano - P8),
min(ALTO_RANGE[1], soprano)]`, then the tenor within
`[max(TENOR_RANGE[0], alto - P8), min(TENOR_RANGE[1], alto)]`. -/
def _voiceTriadUnordered (noteNames : List NoteName) :
    List (Pitch' × Pitch' × Pitch') :=
  (perms3 noteNames).flatMap (fun tas =>
    (voiceNote tas.2.2 SOPRANO_RANGE).flatMap (fun sopranoNote =>
      let altoMin := pmax ALTO_RANGE.1 (transposeP8Down sopranoNote)
      let altoMax := pmin ALTO_RANGE.2 sopranoNote
      (voiceNote tas.2.1 (altoMin, altoMax)).flatMap (fun altoNote =>
        let tenorMin := pmax TENOR_RANGE.1 (transposeP8Down altoNote)
        let tenorMax := pmin TENOR_RANGE.2 altoNote
        (voiceNote tas.1 (tenorMin, tenorMax)).map (fun tenorNote =>
          (tenorNote, altoNote, sopranoNote)))))

/-- Pitch-space value of `Chord([t, a, s]).bass()`: the lowest of the
three pitches (music21 `bass()` returns the lowest pitch; only its `ps`
is consulted, in the comparison `bassNote <= chord.bass()`). -/
def chordBassPs (t a s : Pitch') : Int := min (min t.ps a.ps) s.ps

/-- `_voiceChord(noteNames)`: `noteNames.pop(0)` is the bass class; for
every voicing of the remaining triad and every bass pitch of the bass
class within `BASS_RANGE` that does not exceed the triad's lowest pitch,
yield the four-pitch chord (whose pitches music21 then keeps sorted
ascending).  The source asserts `len(noteNames) == 4`; other shapes
produce nothing. -/
def _voiceChord (desc : ChordDesc) (noteNames : List NoteName) : List VChord :=
  match noteNames with
  | [bassName, n1, n2, n3] =>
    (_voiceTriadUnordered [n1, n2, n3]).flatMap (fun tas =>
      ((voiceNote bassName BASS_RANGE).filter
        (fun bassNote => bassNote.ps ≤ chordBassPs tas.1 tas.2.1 tas.2.2)).map
        (fun bassNote => ⟨bassNote, tas.1, tas.2.1, tas.2.2, desc⟩))
  | _ => []

/-- `voiceChord(chord)`: seventh chords are voiced from their four
pitch-class names as given; second-inversion triads double the first
name (the bass, i.e. the fifth); other triads union the three doubling
alternatives (root, third, fifth), plus, for the root-position tonic
triad `I`, the alternative `[root, root, root, third]`. -/
def voiceChord (c : ChordDesc) : List VChord :=
  let noteNames := c.noteNames
  if c.containsSeventh then
    _voiceChord c noteNames
  else if c.inversion = 2 then
    match noteNames with
    | n0 :: _ => _voiceChord c (noteNames ++ [n0])
    | [] => []
  else
    _voiceChord c (noteNames ++ [c.root]) ++
    _voiceChord c (noteNames ++ [c.third]) ++
    _voiceChord c (noteNames ++ [c.fifth]) ++
    (if c.romanNumeral = "I" ∧ c.inversion = 0 then
      _voiceChord c [c.root, c.root, c.root, c.third]
    else [])

/-- The key, reduced to what the cost model reads from it:
`key.getTonic().name` and `key.getDominant().name`. -/
structure KeyT where
  tonic : NoteName
  dominant : NoteName
deriving DecidableEq, Repr

/-- `chord.pitches` of a generated voicing: ascending order. -/
def VChord.pitches (c : VChord) : List Pitch' := [c.bass, c.tenor, c.alto, c.soprano]

/-- `chord.pitches[i]` / `chord[i]` for the indices 0..3 used by `cost`. -/
def VChord.pitchAt (c : VChord) (i : Nat) : Pitch' :=
  match i with
  | 0 => c.bass
  | 1 => c.tenor
  | 2 => c.alto
  | _ => c.soprano

/-- `chord.pitches.index(p)` for a chord member identified by its
pitch-class name: music21's `chord.third` / `chord.seventh` return the
lowest chord pitch carrying that chord step, and `.index` then finds that
same pitch, i.e. the first index whose pitch has that name. -/
def idxOfName (c : VChord) (n : NoteName) : Option Nat :=
  c.pitches.findIdx? (fun p => decide (p.name = n))

/-- The `+50` voice overlap test of `cost` (source lines 82-86), with
`chord[0..3]` being bass, tenor, alto, soprano in ascending order. -/
def overlapPenalty (c1 c2 : VChord) : Nat :=
  if c2.bass.ps > c1.tenor.ps
      ∨ c2.tenor.ps < c1.bass.ps ∨ c2.tenor.ps > c1.alto.ps
      ∨ c2.alto.ps < c1.tenor.ps ∨ c2.alto.ps > c1.soprano.ps
      ∨ c2.soprano.ps < c1.alto.ps then 50 else 0

/-- The leap terms of `cost` (source lines 89-92). -/
def leapPenalty (c1 c2 : VChord) : Nat :=
  ((c1.bass.ps - c2.bass.ps).natAbs / 2) ^ 2
    + (c1.tenor.ps - c2.tenor.ps).natAbs ^ 2
    + (c1.alto.ps - c2.alto.ps).natAbs ^ 2
    + (c1.soprano.ps - c2.soprano.ps).natAbs ^ 2 / 10

/-- The body of the motion double loop of `cost` for one voice pair,
lower voice `b`, upper voice `t` (source lines 97-105); Python `%` on a
positive divisor agrees with `Int.emod`. -/
def pairPenalty (b1 t1 b2 t2 : Pitch') : Nat :=
  let i1 := t1.ps - b1.ps
  let i2 := t2.ps - b2.ps
  (if i1 % 12 = i2 % 12 ∧ i2 % 12 = 7 then 60 else 0)
    + (if i1 % 12 = i2 % 12 ∧ i2 % 12 = 0 then 100 else 0)
    + (if (t2.ps > t1.ps ∧ b2.ps > b1.ps) ∨ (t2.ps < t1.ps ∧ b2.ps < b1.ps)
       then 1 else 0)

/-- The motion double loop of `cost`: all pairs `i < j` over the four
voices in ascending order. -/
def motionPenalty (c1 c2 : VChord) : Nat :=
  pairPenalty c1.bass c1.tenor c2.bass c2.tenor
    + pairPenalty c1.bass c1.alto c2.bass c2.alto
    + pairPenalty c1.bass c1.soprano c2.bass c2.soprano
    + pairPenalty c1.tenor c1.alto c2.tenor c2.alto
    + pairPenalty c1.tenor c1.soprano c2.tenor c2.soprano
    + pairPenalty c1.alto c1.soprano c2.alto c2.soprano

/-- The chordal-seventh resolution rule of `cost` (source lines 108-112):
if the chord has a seventh, the voice carrying it must stay or move down
by at most two semitones.  For voicings produced by `voiceChord` the
seventh, when the descriptor has one, is always present among the
pitches; the `none` fallbacks mirror music21 returning no seventh. -/
def seventhPenalty (c1 c2 : VChord) : Nat :=
  match c1.desc.seventh with
  | none => 0
  | some sName =>
    match idxOfName c1 sName with
    | none => 0
    | some voice =>
      let delta := (c2.pitchAt voice).ps - (c1.pitchAt voice).ps
      if delta < -2 ∨ delta > 0 then 80 else 0

/-- The leading-tone resolution rule of `cost` (source lines 115-120):
on dominant-root to tonic-root motion, the voice carrying the first
chord's third must rise by a semitone, or fall by four semitones provided
that voice is not index 3 (the soprano).  The source indexes the third
unconditionally; for voicings produced by `voiceChord` the third is
always present among the pitches, and the `none` fallback is unreachable
there. -/
def leadingPenalty (key : KeyT) (c1 c2 : VChord) : Nat :=
  if c1.desc.root = key.dominant ∧ c2.desc.root = key.tonic then
    match idxOfName c1 c1.desc.third with
    | none => 0
    | some voice =>
      let delta := (c2.pitchAt voice).ps - (c1.pitchAt voice).ps
      if delta ≠ 1 ∧ (delta ≠ -4 ∨ voice = 3) then 80 else 0
  else 0

/-- `cost(key, chord1, chord2)`: the sum of the five additive rule
groups, in source order. -/
def cost (key : KeyT) (c1 c2 : VChord) : Nat :=
  overlapPenalty c1 c2 + leapPenalty c1 c2 + motionPenalty c1 c2
    + seventhPenalty c1 c2 + leadingPenalty key c1 c2

/-- A DP cost: `none` models Python's `float('inf')` seed. -/
abbrev Cost := Option Nat

/-- `pcost + cost(...)` where `pcost` may be infinite. -/
def cadd (a : Cost) (b : Nat) : Cost :=
  match a with
  | none => none
  | some x => some (x + b)

/-- Python `<` on DP costs: `inf < inf` is false, finite `< inf` is
true, `inf <` finite is false. -/
def clt (a b : Cost) : Bool :=
  match a, b with
  | none, _ => false
  | some _, none => true
  | some x, some y => x < y

/-- One DP table entry: the voicing (the dict key) with its best
cumulative cost and predecessor. -/
abbrev Entry := VChord × Cost × Option VChord

/-- The inner minimization of `voiceProgression` for one voicing `v` of
the current layer: fold over the previous layer's entries, keeping the
first strict improvement, starting from `(float('inf'), None)`. -/
def bestPrev (k : KeyT) (prev : List Entry) (v : VChord) : Cost × Option VChord :=
  prev.foldl (fun best pe =>
    let ccost := cadd pe.2.1 (cost k pe.1 v)
    if clt ccost best.1 then (ccost, some pe.1) else best) (none, none)

/-- The DP layers after the first: each layer maps every voicing of its
chord to its best cost and predecessor over the previous layer. -/
def buildRest (k : KeyT) (prev : List Entry) : List ChordDesc → List (List Entry)
  | [] => []
  | d :: rest =>
    let cur := (voiceChord d).map
      (fun v => (v, (bestPrev k prev v).1, (bestPrev k prev v).2))
    cur :: buildRest k cur rest

/-- All DP layers: the first chord's voicings are seeded with cost 0 and
no predecessor. -/
def dpLayers (k : KeyT) (descs : List ChordDesc) : List (List Entry) :=
  match descs with
  | [] => []
  | d :: rest =>
    let layer0 := (voiceChord d).map
      (fun v => (v, (some 0 : Cost), (none : Option VChord)))
    layer0 :: buildRest k layer0 rest

/-- `min(dp[-1].items(), key=lambda p: p[1][0])`: first minimum by cost,
`None` on an empty layer (where Python's `min` raises `ValueError`). -/
def minByCost (l : List Entry) : Option Entry :=
  match l with
  | [] => none
  | e :: rest =>
    some (rest.foldl (fun best x => if clt x.2.1 best.2.1 then x else best) e)

/-- The errors `voiceProgression` can raise.  The source defines no
exception classes of its own; it surfaces Python's built-in `IndexError`
(indexing `dp[-1]` of an empty list), `ValueError` (`min` of an empty
dict) and `KeyError` (looking up a missing key, in particular `None`,
during backtrace).  The `infeasibleProgression` constructor is modelled
from the spec's error taxonomy only so that the spec's claim about it can
be stated; the source never produces it. -/
inductive PyError where
  | indexError
  | valueError
  | keyError
  | infeasibleProgression (index : Nat)
deriving DecidableEq, Repr

/-- The backtrace loop of `voiceProgression`: walk the layers from last
to first, appending the current chord and stepping to its stored
predecessor; looking up `None` (or a missing key) raises `KeyError`, and
the collected list is reversed at the end. -/
def backtraceGo : List (List Entry) → Option VChord → List VChord →
    Except PyError (List VChord)
  | [], _, acc => .ok acc.reverse
  | layer :: earlier, cur, acc =>
    match cur with
    | none => .error .keyError
    | some c =>
      match layer.find? (fun pe => decide (pe.1 = c)) with
      | none => .error .keyError
      | some pe => backtraceGo earlier pe.2.2 (acc ++ [c])

/-- `voiceProgression(key, chordProgression)` over already-resolved chord
descriptors; the printed total cost is modelled as part of the returned
value. -/
def voiceProgression (k : KeyT) (descs : List ChordDesc) :
    Except PyError (List VChord × Cost) :=
  let dp := dpLayers k descs
  match dp.getLast? with
  | none => .error .indexError
  | some last =>
    match minByCost last with
    | none => .error .valueError
    | some e =>
      (backtraceGo dp.reverse (some e.1) []).map (fun chords => (chords, e.2.1))

/-- Whether a result is the spec's `InfeasibleProgressionError`. -/
def isInfeasibleErr {α : Type} : Except PyError α → Bool
  | .error (.infeasibleProgression _) => true
  | _ => false

/-! ### Basic pitch lemmas -/

lemma transposeP8Down_ps (p : Pitch') : (transposeP8Down p).ps = p.ps - 12 := by
  simp only [transposeP8Down, Pitch'.ps]
  ring

lemma pmax_ps_left (a b : Pitch') : a.ps ≤ (pmax a b).ps := by
  unfold pmax; split <;> omega

lemma pmax_ps_right (a b : Pitch') : b.ps ≤ (pmax a b).ps := by
  unfold pmax; split <;> omega

lemma pmin_ps_left (a b : Pitch') : (pmin a b).ps ≤ a.ps := by
  unfold pmin; split <;> omega

lemma pmin_ps_right (a b : Pitch') : (pmin a b).ps ≤ b.ps := by
  unfold pmin; split <;> omega

/-- Soundness of `voiceNote`: everything yielded has the requested name
and lies within the range. -/
lemma voiceNote_mem {name : NoteName} {r : Pitch' × Pitch'} {p : Pitch'}
    (h : p ∈ voiceNote name r) :
    p.name = name ∧ r.1.ps ≤ p.ps ∧ p.ps ≤ r.2.ps := by
  simp only [voiceNote, List.mem_filterMap, List.mem_range] at h
  obtain ⟨i, -, hc⟩ := h
  split at hc
  · cases hc
    exact ⟨rfl, by assumption⟩
  · cases hc

/-! ### C1 machinery: invariants of the voicing generator -/

/-- Bounds extracted from membership in `_voiceTriadUnordered`:
tenor/alto/soprano are within their ranges, ascending, and adjacent
upper voices are at most an octave apart. -/
lemma _voiceTriadUnordered_mem {names : List NoteName} {t a s : Pitch'}
    (h : (t, a, s) ∈ _voiceTriadUnordered names) :
    48 ≤ t.ps ∧ t.ps ≤ 67 ∧ 55 ≤ a.ps ∧ a.ps ≤ 72 ∧ 60 ≤ s.ps ∧ s.ps ≤ 79 ∧
    t.ps ≤ a.ps ∧ a.ps ≤ s.ps ∧ a.ps - t.ps ≤ 12 ∧ s.ps - a.ps ≤ 12 := by
  simp only [_voiceTriadUnordered, List.mem_flatMap, List.mem_map] at h
  obtain ⟨tas, -, sopranoNote, hsop, altoNote, hal, tenorNote, hten, heq⟩ := h
  have h1 : tenorNote = t := congrArg Prod.fst heq
  have h2 : altoNote = a := congrArg (fun q => q.2.1) heq
  have h3 : sopranoNote = s := congrArg (fun q => q.2.2) heq
  obtain ⟨-, hs1, hs2⟩ := voiceNote_mem hsop
  obtain ⟨-, ha1, ha2⟩ := voiceNote_mem hal
  obtain ⟨-, ht1, ht2⟩ := voiceNote_mem hten
  dsimp only at ha1 ha2 ht1 ht2
  have e1 : SOPRANO_RANGE.1.ps = 60 := rfl
  have e2 : SOPRANO_RANGE.2.ps = 79 := rfl
  have e3 : ALTO_RANGE.1.ps = 55 := rfl
  have e4 : ALTO_RANGE.2.ps = 72 := rfl
  have e5 : TENOR_RANGE.1.ps = 48 := rfl
  have e6 : TENOR_RANGE.2.ps = 67 := rfl
  have hA1 := pmax_ps_left ALTO_RANGE.1 (transposeP8Down sopranoNote)
  have hA2 := pmax_ps_right ALTO_RANGE.1 (transposeP8Down sopranoNote)
  have hA3 := pmin_ps_left ALTO_RANGE.2 sopranoNote
  have hA4 := pmin_ps_right ALTO_RANGE.2 sopranoNote
  have hT1 := pmax_ps_left TENOR_RANGE.1 (transposeP8Down altoNote)
  have hT2 := pmax_ps_right TENOR_RANGE.1 (transposeP8Down altoNote)
  have hT3 := pmin_ps_left TENOR_RANGE.2 altoNote
  have hT4 := pmin_ps_right TENOR_RANGE.2 altoNote
  rw [transposeP8Down_ps] at hA2 hT2
  rw [← h1, ← h2, ← h3]
  omega

/-- Bounds extracted from membership in `_voiceChord`: the full §3
voiced-chord invariant. -/
lemma _voiceChord_mem {desc : ChordDesc} {names : List NoteName} {c : VChord}
    (h : c ∈ _voiceChord desc names) :
    c.bass.ps ≤ c.tenor.ps ∧ c.tenor.ps ≤ c.alto.ps ∧ c.alto.ps ≤ c.soprano.ps ∧
    c.alto.ps - c.tenor.ps ≤ 12 ∧ c.soprano.ps - c.alto.ps ≤ 12 ∧
    41 ≤ c.bass.ps ∧ c.bass.ps ≤ 60 ∧ 48 ≤ c.tenor.ps ∧ c.tenor.ps ≤ 67 ∧
    55 ≤ c.alto.ps ∧ c.alto.ps ≤ 72 ∧ 60 ≤ c.soprano.ps ∧ c.soprano.ps ≤ 79 ∧
    c.desc = desc := by
  match names with
  | [bassName, n1, n2, n3] =>
    simp only [_voiceChord, List.mem_flatMap, List.mem_map, List.mem_filter] at h
    obtain ⟨tas, htas, bassNote, ⟨hbass, hguard⟩, heq⟩ := h
    obtain ⟨t, a, s⟩ := tas
    have htri := _voiceTriadUnordered_mem htas
    obtain ⟨-, hb1, hb2⟩ := voiceNote_mem hbass
    have eb1 : BASS_RANGE.1.ps = 41 := rfl
    have eb2 : BASS_RANGE.2.ps = 60 := rfl
    have hg : bassNote.ps ≤ chordBassPs t a s := by simpa using hguard
    have hg' : bassNote.ps ≤ t.ps :=
      le_trans hg (le_trans (min_le_left _ _) (min_le_left _ _))
    obtain ⟨q1, q2, q3, q4, q5, q6, q7, q8, q9, q10⟩ := htri
    subst heq
    refine ⟨?_, ?_, ?_, ?_, ?_, ?_, ?_, ?_, ?_, ?_, ?_, ?_, ?_, rfl⟩ <;>
      dsimp only <;> omega
  | [] => simp [_voiceChord] at h
  | [_] => simp [_voiceChord] at h
  | [_, _] => simp [_voiceChord] at h
  | [_, _, _] => simp [_voiceChord] at h
  | _ :: _ :: _ :: _ :: _ :: _ => simp [_voiceChord] at h

/-- Every chord yielded by `voiceChord` comes from some `_voiceChord`
call. -/
lemma voiceChord_mem {desc : ChordDesc} {c : VChord} (h : c ∈ voiceChord desc) :
    ∃ names, c ∈ _voiceChord desc names := by
  simp only [voiceChord] at h
  split at h
  · exact ⟨_, h⟩
  · split at h
    · rcases hnn : desc.noteNames with - | ⟨n0, tl⟩ <;> rw [hnn] at h
      · simp at h
      · exact ⟨_, h⟩
    · simp only [List.mem_append] at h
      rcases h with ((h | h) | h) | h
      · exact ⟨_, h⟩
      · exact ⟨_, h⟩
      · exact ⟨_, h⟩
      · split at h
        · exact ⟨_, h⟩
        · simp at h

/-- C1: every `VoicedChord` yielded by `voiceChord` satisfies
`bass ≤ tenor ≤ alto ≤ soprano`, `alto − tenor ≤ 12` semitones,
`soprano − alto ≤ 12` semitones, and each voice lies within its declared
range (soprano [C4,G5], alto [G3,C5], tenor [C3,G4], bass [F2,C4]). -/
theorem voiceChord_invariants (desc : ChordDesc) (vc : VChord)
    (h : vc ∈ voiceChord desc) :
    vc.bass.ps ≤ vc.tenor.ps ∧ vc.tenor.ps ≤ vc.alto.ps ∧
    vc.alto.ps ≤ vc.soprano.ps ∧
    vc.alto.ps - vc.tenor.ps ≤ 12 ∧ vc.soprano.ps - vc.alto.ps ≤ 12 ∧
    SOPRANO_RANGE.1.ps ≤ vc.soprano.ps ∧ vc.soprano.ps ≤ SOPRANO_RANGE.2.ps ∧
    ALTO_RANGE.1.ps ≤ vc.alto.ps ∧ vc.alto.ps ≤ ALTO_RANGE.2.ps ∧
    TENOR_RANGE.1.ps ≤ vc.tenor.ps ∧ vc.tenor.ps ≤ TENOR_RANGE.2.ps ∧
    BASS_RANGE.1.ps ≤ vc.bass.ps ∧ vc.bass.ps ≤ BASS_RANGE.2.ps := by
  obtain ⟨names, h'⟩ := voiceChord_mem h
  obtain ⟨q1, q2, q3, q4, q5, q6, q7, q8, q9, q10, q11, q12, q13, -⟩ :=
    _voiceChord_mem h'
  have e1 : SOPRANO_RANGE.1.ps = 60 := rfl
  have e2 : SOPRANO_RANGE.2.ps = 79 := rfl
  have e3 : ALTO_RANGE.1.ps = 55 := rfl
  have e4 : ALTO_RANGE.2.ps = 72 := rfl
  have e5 : TENOR_RANGE.1.ps = 48 := rfl
  have e6 : TENOR_RANGE.2.ps = 67 := rfl
  have e7 : BASS_RANGE.1.ps = 41 := rfl
  have e8 : BASS_RANGE.2.ps = 60 := rfl
  omega

/-- A concrete seventh-chord descriptor (all classes G#) used to witness
the generator theorems on a small, fully evaluated voicing list. -/
def descW1 : ChordDesc :=
  { noteNames := [⟨4, 1⟩, ⟨4, 1⟩, ⟨4, 1⟩, ⟨4, 1⟩], containsSeventh := true,
    inversion := 0, romanNumeral := "V7", root := ⟨4, 1⟩, third := ⟨4, 1⟩,
    fifth := ⟨4, 1⟩, seventh := some ⟨4, 1⟩ }

/-- The first voicing `voiceChord` yields for `descW1`:
(G#2, G#3, G#3, G#4). -/
def vcW1 : VChord :=
  ⟨⟨⟨4, 1⟩, 2⟩, ⟨⟨4, 1⟩, 3⟩, ⟨⟨4, 1⟩, 3⟩, ⟨⟨4, 1⟩, 4⟩, descW1⟩

/-- Witness for C1 at a concrete generated voicing. -/
theorem voiceChord_invariants_witness :
    vcW1 ∈ voiceChord descW1 ∧
    (vcW1.bass.ps ≤ vcW1.tenor.ps ∧ vcW1.tenor.ps ≤ vcW1.alto.ps ∧
    vcW1.alto.ps ≤ vcW1.soprano.ps ∧
    vcW1.alto.ps - vcW1.tenor.ps ≤ 12 ∧ vcW1.soprano.ps - vcW1.alto.ps ≤ 12 ∧
    SOPRANO_RANGE.1.ps ≤ vcW1.soprano.ps ∧ vcW1.soprano.ps ≤ SOPRANO_RANGE.2.ps ∧
    ALTO_RANGE.1.ps ≤ vcW1.alto.ps ∧ vcW1.alto.ps ≤ ALTO_RANGE.2.ps ∧
    TENOR_RANGE.1.ps ≤ vcW1.tenor.ps ∧ vcW1.tenor.ps ≤ TENOR_RANGE.2.ps ∧
    BASS_RANGE.1.ps ≤ vcW1.bass.ps ∧ vcW1.bass.ps ≤ BASS_RANGE.2.ps) := by
  have m : vcW1 ∈ voiceChord descW1 := by decide
  exact ⟨m, voiceChord_invariants descW1 vcW1 m⟩

/-! ### C8: exactness of `voiceNote` -/

/-- Completeness of `voiceNote` for pitch-class names and range bounds
whose chromatic offset lies within one octave (0..11): every pitch of
the requested name inside the range is yielded.  (For cross-octave
spellings such as B# or C- the octave window `range(lowerOctave,
upperOctave + 1)` can miss an in-range pitch; see the counterexample.) -/
lemma voiceNote_complete {name : NoteName} {r : Pitch' × Pitch'} {p : Pitch'}
    (hn : p.name = name) (h1 : r.1.ps ≤ p.ps) (h2 : p.ps ≤ r.2.ps)
    (hoff1 : 0 ≤ name.off) (hoff2 : name.off ≤ 11)
    (hlo : 0 ≤ r.1.name.off) (hhi : r.2.name.off ≤ 11) :
    p ∈ voiceNote name r := by
  obtain ⟨pn, po⟩ := p
  have hn' : pn = name := hn
  subst hn'
  have hps : (⟨pn, po⟩ : Pitch').ps = pn.off + 12 * (po + 1) := rfl
  have hlops : r.1.ps = r.1.name.off + 12 * (r.1.octave + 1) := rfl
  have hhips : r.2.ps = r.2.name.off + 12 * (r.2.octave + 1) := rfl
  have hoct1 : r.1.octave ≤ po := by omega
  have hoct2 : po ≤ r.2.octave := by omega
  simp only [voiceNote, List.mem_filterMap, List.mem_range]
  refine ⟨(po - r.1.octave).toNat, by omega, ?_⟩
  have he : r.1.octave + ((po - r.1.octave).toNat : Int) = po := by omega
  rw [he, if_pos ⟨h1, h2⟩]

/-- The pitches yielded by `voiceNote` are strictly ascending. -/
lemma voiceNote_sorted (name : NoteName) (r : Pitch' × Pitch') :
    (voiceNote name r).Pairwise (fun p q => p.ps < q.ps) := by
  unfold voiceNote
  rw [List.pairwise_filterMap]
  refine (List.pairwise_lt_range _).imp ?_
  intro i j hij b hb b' hb'
  dsimp only at hb hb'
  split at hb
  · simp only [Option.mem_def, Option.some.injEq] at hb
    subst hb
    split at hb'
    · simp only [Option.mem_def, Option.some.injEq] at hb'
      subst hb'
      show name.off + 12 * (r.1.octave + (i : Int) + 1) <
        name.off + 12 * (r.1.octave + (j : Int) + 1)
      omega
    · cases hb'
  · cases hb

/-- C8 (amended): for pitch-class names and range bounds whose chromatic
offsets lie within a single octave (0..11, i.e. no cross-octave
enharmonic spellings), `voiceNote` yields exactly the pitches of the
given name whose height lies within the closed range, in strictly
ascending order; in particular it is empty exactly when no octave of the
class fits the range.  (The list model is finite, restartable and
side-effect-free by construction.) -/
theorem voiceNote_exact (name : NoteName) (r : Pitch' × Pitch')
    (hoff1 : 0 ≤ name.off) (hoff2 : name.off ≤ 11)
    (hlo1 : 0 ≤ r.1.name.off) (hlo2 : r.1.name.off ≤ 11)
    (hhi1 : 0 ≤ r.2.name.off) (hhi2 : r.2.name.off ≤ 11) :
    (∀ p : Pitch', p ∈ voiceNote name r ↔
      p.name = name ∧ r.1.ps ≤ p.ps ∧ p.ps ≤ r.2.ps) ∧
    (voiceNote name r).Pairwise (fun p q => p.ps < q.ps) := by
  refine ⟨fun p => ⟨voiceNote_mem, fun ⟨hn, h1, h2⟩ =>
    voiceNote_complete hn h1 h2 hoff1 hoff2 hlo1 hhi2⟩,
    voiceNote_sorted name r⟩

/-- Witness for C8 (amended) at the name C over the tenor range. -/
theorem voiceNote_exact_witness :
    (0 ≤ (⟨0, 0⟩ : NoteName).off ∧ (⟨0, 0⟩ : NoteName).off ≤ 11 ∧
      0 ≤ TENOR_RANGE.1.name.off ∧ TENOR_RANGE.1.name.off ≤ 11 ∧
      0 ≤ TENOR_RANGE.2.name.off ∧ TENOR_RANGE.2.name.off ≤ 11) ∧
    ((∀ p : Pitch', p ∈ voiceNote ⟨0, 0⟩ TENOR_RANGE ↔
      p.name = ⟨0, 0⟩ ∧ TENOR_RANGE.1.ps ≤ p.ps ∧ p.ps ≤ TENOR_RANGE.2.ps) ∧
    (voiceNote ⟨0, 0⟩ TENOR_RANGE).Pairwise (fun p q => p.ps < q.ps)) := by
  refine ⟨by decide, voiceNote_exact ⟨0, 0⟩ TENOR_RANGE (by decide) (by decide)
    (by decide) (by decide) (by decide) (by decide)⟩

/-- C8 counterexample: for the cross-octave spelling B# (chromatic
offset 12) over the tenor range [C3, G4], the pitch B#2 has the
requested name and height 48 within the range, yet `voiceNote` does not
yield it (its octave 2 lies outside the scanned window 3..4); the claim
as stated fails for such names. -/
theorem voiceNote_misses_enharmonic :
    voiceNote ⟨6, 1⟩ TENOR_RANGE = [⟨⟨6, 1⟩, 3⟩] ∧
    (⟨⟨6, 1⟩, 2⟩ : Pitch').name = ⟨6, 1⟩ ∧
    TENOR_RANGE.1.ps ≤ (⟨⟨6, 1⟩, 2⟩ : Pitch').ps ∧
    (⟨⟨6, 1⟩, 2⟩ : Pitch').ps ≤ TENOR_RANGE.2.ps ∧
    (⟨⟨6, 1⟩, 2⟩ : Pitch') ∉ voiceNote ⟨6, 1⟩ TENOR_RANGE := by
  decide

/-! ### Cost model claims -/

/-- C4 counterexample data: C major key (tonic C, dominant G). -/
def kC : KeyT := ⟨⟨0, 0⟩, ⟨4, 0⟩⟩

/-- A descriptor whose root (D) is neither tonic nor dominant of C and
which has no seventh, so only the overlap/leap/motion rules can fire. -/
def descA : ChordDesc :=
  { noteNames := [], containsSeventh := false, inversion := 0,
    romanNumeral := "ii", root := ⟨1, 0⟩, third := ⟨3, 1⟩, fifth := ⟨5, 0⟩,
    seventh := none }

/-- The sorted chord (C3, E3, A3, D4): no pair a fifth or octave apart. -/
def cA : VChord :=
  ⟨⟨⟨0, 0⟩, 3⟩, ⟨⟨2, 0⟩, 3⟩, ⟨⟨5, 0⟩, 3⟩, ⟨⟨1, 0⟩, 4⟩, descA⟩

/-- C4 counterexample: for the self-transition of the sorted chord
(C3, E3, A3, D4) the claim's condition `soprano(B) > alto(A)` holds
(62 > 57), yet the code adds no +50 penalty at all (the total cost is 0):
the claim's voice labels do not match the code's ascending indexing. -/
theorem overlap_counterexample :
    cost kC cA cA = 0 ∧ cA.soprano.ps > cA.alto.ps := by decide

/-- C4 (amended): `cost` adds the +50 crossing/overlap penalty exactly
when, for earlier chord A and later chord B (pitches indexed ascending,
0 = bass .. 3 = soprano), `bass(B) > tenor(A)` or `tenor(B) < bass(A)` or
`tenor(B) > alto(A)` or `alto(B) < tenor(A)` or `alto(B) > soprano(A)` or
`soprano(B) < alto(A)`, and adds nothing for this rule otherwise. -/
theorem cost_overlap_rule (key : KeyT) (c1 c2 : VChord) :
    cost key c1 c2 =
      (if c2.bass.ps > c1.tenor.ps ∨ c2.tenor.ps < c1.bass.ps ∨
          c2.tenor.ps > c1.alto.ps ∨ c2.alto.ps < c1.tenor.ps ∨
          c2.alto.ps > c1.soprano.ps ∨ c2.soprano.ps < c1.alto.ps
        then 50 else 0)
        + leapPenalty c1 c2 + motionPenalty c1 c2 + seventhPenalty c1 c2
        + leadingPenalty key c1 c2 := rfl

/-- C9: the leap penalty added by `cost` is exactly
`(|Δbass|//2)² + Δtenor² + Δalto² + (Δsoprano²)//10` in semitones, with
`//` integer floor division. -/
theorem cost_leap_rule (key : KeyT) (c1 c2 : VChord) :
    cost key c1 c2 =
      overlapPenalty c1 c2
        + (((c1.bass.ps - c2.bass.ps).natAbs / 2) ^ 2
          + (c1.tenor.ps - c2.tenor.ps).natAbs ^ 2
          + (c1.alto.ps - c2.alto.ps).natAbs ^ 2
          + (c1.soprano.ps - c2.soprano.ps).natAbs ^ 2 / 10)
        + motionPenalty c1 c2 + seventhPenalty c1 c2
        + leadingPenalty key c1 c2 := rfl

/-- Number of voice pairs of a chord standing a perfect fifth apart
(modulo octaves). -/
def p5Pair (b t : Pitch') : Nat := if (t.ps - b.ps) % 12 = 7 then 1 else 0

/-- Number of voice pairs of a chord standing a unison or octave apart. -/
def p8Pair (b t : Pitch') : Nat := if (t.ps - b.ps) % 12 = 0 then 1 else 0

/-- Count of fifth-sounding pairs among the six voice pairs. -/
def fifthPairs (c : VChord) : Nat :=
  p5Pair c.bass c.tenor + p5Pair c.bass c.alto + p5Pair c.bass c.soprano
    + p5Pair c.tenor c.alto + p5Pair c.tenor c.soprano
    + p5Pair c.alto c.soprano

/-- Count of unison/octave-sounding pairs among the six voice pairs. -/
def octavePairs (c : VChord) : Nat :=
  p8Pair c.bass c.tenor + p8Pair c.bass c.alto + p8Pair c.bass c.soprano
    + p8Pair c.tenor c.alto + p8Pair c.tenor c.soprano
    + p8Pair c.alto c.soprano

lemma pairPenalty_self (b t : Pitch') :
    pairPenalty b t b t =
      (if (t.ps - b.ps) % 12 = 7 then 60 else 0)
        + (if (t.ps - b.ps) % 12 = 0 then 100 else 0) := by
  unfold pairPenalty
  dsimp only
  split_ifs <;> omega

lemma ite60 (P : Prop) [Decidable P] :
    (if P then (60 : Nat) else 0) = 60 * (if P then 1 else 0) := by
  split <;> simp

lemma ite100 (P : Prop) [Decidable P] :
    (if P then (100 : Nat) else 0) = 100 * (if P then 1 else 0) := by
  split <;> simp

lemma leapPenalty_self (c : VChord) : leapPenalty c c = 0 := by
  simp [leapPenalty]

lemma seventhPenalty_self (c : VChord) : seventhPenalty c c = 0 := by
  unfold seventhPenalty
  cases hs : c.desc.seventh with
  | none => rfl
  | some sName =>
    cases hv : idxOfName c sName with
    | none => simp [hv]
    | some voice => simp [hv]

lemma motionPenalty_self (c : VChord) :
    motionPenalty c c = 60 * fifthPairs c + 100 * octavePairs c := by
  unfold motionPenalty fifthPairs octavePairs p5Pair p8Pair
  simp only [pairPenalty_self, ite60, ite100]
  ring

/-- C6 (amended): on a self-transition `cost(key, A, A)` the leap terms
are all 0, the chordal-seventh rule adds nothing, and the +1
similar-motion penalty never fires (static voices are exempt); however
the parallel-fifth (+60) and parallel-octave (+100) checks do fire, once
for every voice pair of A standing at interval ≡ 7 (resp. ≡ 0) mod 12,
so the motion loop contributes exactly
`60 * fifthPairs A + 100 * octavePairs A`. -/
theorem cost_self_rule (key : KeyT) (c : VChord) :
    leapPenalty c c = 0 ∧ seventhPenalty c c = 0 ∧
    motionPenalty c c = 60 * fifthPairs c + 100 * octavePairs c ∧
    cost key c c = overlapPenalty c c + 60 * fifthPairs c
      + 100 * octavePairs c + leadingPenalty key c c := by
  refine ⟨leapPenalty_self c, seventhPenalty_self c, motionPenalty_self c, ?_⟩
  unfold cost
  rw [leapPenalty_self, seventhPenalty_self, motionPenalty_self]
  ring

/-- A descriptor whose root (F) is neither tonic nor dominant of C. -/
def descA0 : ChordDesc :=
  { noteNames := [], containsSeventh := false, inversion := 0,
    romanNumeral := "IV", root := ⟨3, 0⟩, third := ⟨5, 0⟩, fifth := ⟨0, 0⟩,
    seventh := none }

/-- The sorted chord (C3, G3, E4, C5): bass-tenor are a fifth apart and
bass-soprano two octaves apart. -/
def cA0 : VChord :=
  ⟨⟨⟨0, 0⟩, 3⟩, ⟨⟨4, 0⟩, 3⟩, ⟨⟨2, 0⟩, 4⟩, ⟨⟨0, 0⟩, 5⟩, descA0⟩

/-- C6 counterexample: for A = (C3, G3, E4, C5), `cost(key, A, A)` is
160 — the static bass-tenor fifth triggers +60 and the static
bass-soprano double octave triggers +100 — although every leap term, the
overlap rule, the seventh rule and the leading-tone rule contribute 0;
the claim that no parallel-fifth/octave penalty is triggered on a
self-transition is false. -/
theorem cost_self_counterexample :
    cost kC cA0 cA0 = 160 ∧ leapPenalty cA0 cA0 = 0 ∧
    overlapPenalty cA0 cA0 = 0 ∧ seventhPenalty cA0 cA0 = 0 ∧
    leadingPenalty kC cA0 cA0 = 0 ∧ motionPenalty cA0 cA0 = 160 := by decide

/-- Descriptor of the dominant triad of C major (G-B-D). -/
def descG : ChordDesc :=
  { noteNames := [⟨4, 0⟩, ⟨6, 0⟩, ⟨1, 0⟩], containsSeventh := false,
    inversion := 0, romanNumeral := "V", root := ⟨4, 0⟩, third := ⟨6, 0⟩,
    fifth := ⟨1, 0⟩, seventh := none }

/-- Descriptor of the tonic triad of C major (C-E-G). -/
def descC : ChordDesc :=
  { noteNames := [⟨0, 0⟩, ⟨2, 0⟩, ⟨4, 0⟩], containsSeventh := false,
    inversion := 0, romanNumeral := "I", root := ⟨0, 0⟩, third := ⟨2, 0⟩,
    fifth := ⟨4, 0⟩, seventh := none }

/-- A first-inversion dominant voicing (B2, D3, G3, D4): the leading
tone B is in the bass (index 0). -/
def c1x : VChord :=
  ⟨⟨⟨6, 0⟩, 2⟩, ⟨⟨1, 0⟩, 3⟩, ⟨⟨4, 0⟩, 3⟩, ⟨⟨1, 0⟩, 4⟩, descG⟩

/-- A tonic voicing (G2, C3, E3, C4) whose bass G2 sits four semitones
below the previous bass B2. -/
def c2x : VChord :=
  ⟨⟨⟨4, 0⟩, 2⟩, ⟨⟨0, 0⟩, 3⟩, ⟨⟨2, 0⟩, 3⟩, ⟨⟨0, 0⟩, 4⟩, descC⟩

/-- C5 counterexample: on the dominant-to-tonic move c1x → c2x the voice
carrying the third (the bass, index 0) falls by exactly 4 semitones; the
claim says a downward fourth in the bass must be penalized (+80), but the
code only excludes index 3 (the soprano, since pitches are ascending)
and adds no penalty here. -/
theorem leading_tone_counterexample :
    c1x.desc.root = kC.dominant ∧ c2x.desc.root = kC.tonic ∧
    idxOfName c1x c1x.desc.third = some 0 ∧
    (c2x.pitchAt 0).ps - (c1x.pitchAt 0).ps = -4 ∧
    leadingPenalty kC c1x c2x = 0 := by decide

/-- C5 (amended): on a dominant-root to tonic-root transition, with `v`
the voice the code checks (the first index whose pitch carries A's third),
`cost` adds +80 unless that voice moves up exactly 1 semitone, or moves
down exactly 4 semitones with that voice not being the soprano
(index 3); any other motion of that voice incurs the +80 penalty. -/
theorem cost_leading_tone_rule (key : KeyT) (c1 c2 : VChord) (v : Nat)
    (hd : c1.desc.root = key.dominant) (ht : c2.desc.root = key.tonic)
    (hv : idxOfName c1 c1.desc.third = some v) :
    cost key c1 c2 =
      overlapPenalty c1 c2 + leapPenalty c1 c2 + motionPenalty c1 c2
        + seventhPenalty c1 c2
        + (if (c2.pitchAt v).ps - (c1.pitchAt v).ps = 1
            ∨ ((c2.pitchAt v).ps - (c1.pitchAt v).ps = -4 ∧ v ≠ 3)
          then 0 else 80) := by
  have hlp : leadingPenalty key c1 c2 =
      (if (c2.pitchAt v).ps - (c1.pitchAt v).ps = 1
          ∨ ((c2.pitchAt v).ps - (c1.pitchAt v).ps = -4 ∧ v ≠ 3)
        then 0 else 80) := by
    unfold leadingPenalty
    rw [if_pos ⟨hd, ht⟩, hv]
    dsimp only
    by_cases h1 : (c2.pitchAt v).ps - (c1.pitchAt v).ps = 1 <;>
      by_cases h2 : (c2.pitchAt v).ps - (c1.pitchAt v).ps = -4 <;>
      by_cases h3 : v = 3 <;>
      simp [h1, h2, h3]
  rw [cost, hlp]

/-- Witness for C5 (amended) at the concrete transition c1x → c2x. -/
theorem cost_leading_tone_rule_witness :
    (c1x.desc.root = kC.dominant ∧ c2x.desc.root = kC.tonic ∧
      idxOfName c1x c1x.desc.third = some 0) ∧
    cost kC c1x c2x =
      overlapPenalty c1x c2x + leapPenalty c1x c2x + motionPenalty c1x c2x
        + seventhPenalty c1x c2x
        + (if (c2x.pitchAt 0).ps - (c1x.pitchAt 0).ps = 1
            ∨ ((c2x.pitchAt 0).ps - (c1x.pitchAt 0).ps = -4 ∧ (0 : Nat) ≠ 3)
          then 0 else 80) := by
  exact ⟨⟨rfl, rfl, by decide⟩,
    cost_leading_tone_rule kC c1x c2x 0 rfl rfl (by decide)⟩

/-- The voice index the code checks is the first (lowest) index whose
pitch carries the given name, and no earlier voice carries it. -/
lemma idxOfName_spec (c : VChord) (n : NoteName) (v : Nat)
    (hv : idxOfName c n = some v) :
    (c.pitchAt v).name = n ∧ ∀ j, j < v → (c.pitchAt j).name ≠ n := by
  simp only [idxOfName, VChord.pitches, List.findIdx?_cons, List.findIdx?_nil] at hv
  by_cases h0 : c.bass.name = n <;> by_cases h1 : c.tenor.name = n <;>
    by_cases h2 : c.alto.name = n <;> by_cases h3 : c.soprano.name = n <;>
    simp [h0, h1, h2, h3] at hv <;> subst hv <;>
    refine ⟨by assumption, fun j hj => ?_⟩ <;>
    first
      | exact absurd hj (Nat.not_lt_zero j)
      | (interval_cases j <;> first | exact h0 | exact h1 | exact h2)

/-- C10: the leading-tone check reads a single voice: the first index of
chord A's ascending pitch list whose pitch carries A's third.  With a
doubled third only that lowest-indexed voice's motion is constrained:
any chord B' agreeing with B on that one voice (with the same
descriptor) gets the identical leading-tone penalty, however the other
third-carrying voices move. -/
theorem leading_tone_lowest_voice (key : KeyT) (c1 c2 c2' : VChord) (v : Nat)
    (hv : idxOfName c1 c1.desc.third = some v)
    (hdesc : c2'.desc = c2.desc)
    (hagree : c2'.pitchAt v = c2.pitchAt v) :
    ((c1.pitchAt v).name = c1.desc.third ∧
      ∀ j, j < v → (c1.pitchAt j).name ≠ c1.desc.third) ∧
    leadingPenalty key c1 c2' = leadingPenalty key c1 c2 := by
  refine ⟨idxOfName_spec c1 c1.desc.third v hv, ?_⟩
  unfold leadingPenalty
  rw [hdesc, hv]
  dsimp only
  rw [hagree]

/-- A dominant voicing with a doubled third: (G2, B3, D4, B4); the
leading tone B is carried by voices 1 and 3. -/
def c1d : VChord :=
  ⟨⟨⟨4, 0⟩, 2⟩, ⟨⟨6, 0⟩, 3⟩, ⟨⟨1, 0⟩, 4⟩, ⟨⟨6, 0⟩, 4⟩, descG⟩

/-- A tonic voicing (C3, C4, E4, C5): voice 1 resolves B3 up to C4. -/
def c2d : VChord :=
  ⟨⟨⟨0, 0⟩, 3⟩, ⟨⟨0, 0⟩, 4⟩, ⟨⟨2, 0⟩, 4⟩, ⟨⟨0, 0⟩, 5⟩, descC⟩

/-- Like `c2d` but the other leading-tone voice (the soprano, B4) leaps
to G5 instead of moving to C5. -/
def c2d' : VChord :=
  ⟨⟨⟨0, 0⟩, 3⟩, ⟨⟨0, 0⟩, 4⟩, ⟨⟨2, 0⟩, 4⟩, ⟨⟨4, 0⟩, 5⟩, descC⟩

/-- Witness for C10: with the third doubled in voices 1 and 3 of `c1d`,
the check reads voice 1 only, and the soprano's arbitrary leap in `c2d'`
leaves the leading-tone penalty unchanged. -/
theorem leading_tone_lowest_voice_witness :
    (idxOfName c1d c1d.desc.third = some 1 ∧ c2d'.desc = c2d.desc ∧
      c2d'.pitchAt 1 = c2d.pitchAt 1) ∧
    (((c1d.pitchAt 1).name = c1d.desc.third ∧
      ∀ j, j < 1 → (c1d.pitchAt j).name ≠ c1d.desc.third) ∧
    leadingPenalty kC c1d c2d' = leadingPenalty kC c1d c2d) := by
  exact ⟨⟨by decide, rfl, rfl⟩,
    leading_tone_lowest_voice kC c1d c2d c2d' 1 (by decide) rfl rfl⟩

/-! ### C7: the doubling alternatives of `voiceChord` -/

/-- C7: the doubling alternatives `voiceChord` enumerates, by case.
Seventh-chord descriptors are voiced from their four names as-is with no
doubling choice; a second-inversion triad (whose bass name, the head of
`noteNames`, is the fifth) yields the single alternative doubling the
fifth; a root-position or first-inversion triad yields the union of the
three alternatives doubling root, third and fifth; and the root-position
tonic triad ("I", inversion 0) additionally yields the alternative with
the root tripled, the third once, and the fifth omitted. -/
theorem voiceChord_doubling (c : ChordDesc) :
    (c.containsSeventh = true → voiceChord c = _voiceChord c c.noteNames) ∧
    (c.containsSeventh = false → c.inversion = 2 →
      ∀ n1 n2, c.noteNames = [c.fifth, n1, n2] →
        voiceChord c = _voiceChord c [c.fifth, n1, n2, c.fifth]) ∧
    (c.containsSeventh = false → c.inversion ≠ 2 →
      ¬(c.romanNumeral = "I" ∧ c.inversion = 0) →
      voiceChord c =
        _voiceChord c (c.noteNames ++ [c.root]) ++
        _voiceChord c (c.noteNames ++ [c.third]) ++
        _voiceChord c (c.noteNames ++ [c.fifth])) ∧
    (c.containsSeventh = false → c.romanNumeral = "I" → c.inversion = 0 →
      voiceChord c =
        _voiceChord c (c.noteNames ++ [c.root]) ++
        _voiceChord c (c.noteNames ++ [c.third]) ++
        _voiceChord c (c.noteNames ++ [c.fifth]) ++
        _voiceChord c [c.root, c.root, c.root, c.third]) := by
  refine ⟨fun h7 => ?_, fun h7 h2 n1 n2 hnn => ?_, fun h7 h2 hni => ?_,
    fun h7 hr hi => ?_⟩
  · simp [voiceChord, h7]
  · simp [voiceChord, h7, h2, hnn]
  · simp only [voiceChord, h7, Bool.false_eq_true, if_false, h2, if_neg hni]
    rw [List.append_nil]
  · have h2 : c.inversion ≠ 2 := by omega
    simp [voiceChord, h7, h2, hr, hi]

/-- Witness for C7 at the root-position C major tonic descriptor. -/
theorem voiceChord_doubling_witness :
    (descC.containsSeventh = false ∧ descC.romanNumeral = "I" ∧
      descC.inversion = 0) ∧
    voiceChord descC =
      _voiceChord descC (descC.noteNames ++ [descC.root]) ++
      _voiceChord descC (descC.noteNames ++ [descC.third]) ++
      _voiceChord descC (descC.noteNames ++ [descC.fifth]) ++
      _voiceChord descC [descC.root, descC.root, descC.root, descC.third] := by
  exact ⟨⟨rfl, rfl, rfl⟩, (voiceChord_doubling descC).2.2.2 rfl rfl rfl⟩

/-! ### DP machinery: properties of the fold steps -/

lemma clt_irrefl (a : Cost) : clt a a = false := by
  cases a <;> simp [clt]

lemma clt_asymm {a b : Cost} (h : clt a b = true) : clt b a = false := by
  cases a <;> cases b <;> simp [clt] at h ⊢ <;> omega

lemma clt_le_trans {x y z : Cost} (h1 : clt x y = true) (h2 : clt z y = false) :
    clt z x = false := by
  cases x <;> cases y <;> cases z <;> simp [clt] at h1 h2 ⊢ <;> omega

lemma clt_trans {x y z : Cost} (h1 : clt x y = true) (h2 : clt y z = true) :
    clt x z = true := by
  cases x <;> cases y <;> cases z <;> simp [clt] at h1 h2 ⊢ <;> omega

/-- The body of the inner minimization fold of `voiceProgression`. -/
def dpStep (k : KeyT) (v : VChord) (best : Cost × Option VChord) (pe : Entry) :
    Cost × Option VChord :=
  let ccost := cadd pe.2.1 (cost k pe.1 v)
  if clt ccost best.1 then (ccost, some pe.1) else best

lemma bestPrev_eq_foldl (k : KeyT) (prev : List Entry) (v : VChord) :
    bestPrev k prev v = prev.foldl (dpStep k v) (none, none) := rfl

/-- The seed layer: every voicing of the first chord with cost 0 and no
predecessor. -/
def seedLayer (l : List VChord) : List Entry :=
  l.map (fun u => (u, (some 0 : Cost), (none : Option VChord)))

/-- Invariant of the inner fold over a seed layer: the accumulator
either survives or is replaced by the first-minimal seed transition, and
the result is a lower bound for all seed transitions. -/
lemma foldl_dpStep_seed (k : KeyT) (v : VChord) :
    ∀ (l : List VChord) (acc r : Cost × Option VChord),
    (seedLayer l).foldl (dpStep k v) acc = r →
    (r = acc ∨ ∃ u ∈ l, r = (some (cost k u v), some u)) ∧
    (∀ u ∈ l, clt (some (cost k u v)) r.1 = false) ∧
    (clt r.1 acc.1 = true ∨ r = acc) := by
  intro l
  induction l with
  | nil =>
    intro acc r hr
    simp only [seedLayer, List.map_nil, List.foldl_nil] at hr
    subst hr
    exact ⟨Or.inl rfl, by simp, Or.inr rfl⟩
  | cons u us ih =>
    intro acc r hr
    simp only [seedLayer, List.map_cons, List.foldl_cons] at hr
    have hr' : (seedLayer us).foldl (dpStep k v)
        (dpStep k v acc (u, (some 0 : Cost), none)) = r := hr
    obtain ⟨hi, hii, hiii⟩ := ih (dpStep k v acc (u, (some 0 : Cost), none)) r hr'
    have hcases :
        (dpStep k v acc (u, (some 0 : Cost), none)
            = (some (0 + cost k u v), some u) ∧
          clt (some (0 + cost k u v)) acc.1 = true) ∨
        (dpStep k v acc (u, (some 0 : Cost), none) = acc ∧
          clt (some (0 + cost k u v)) acc.1 = false) := by
      unfold dpStep
      dsimp only [cadd]
      split
      · exact Or.inl ⟨rfl, by assumption⟩
      · rename_i hcond
        exact Or.inr ⟨rfl, by simpa using hcond⟩
    have hubound : clt (some (cost k u v))
        (dpStep k v acc (u, (some 0 : Cost), none)).1 = false := by
      rcases hcases with ⟨he, -⟩ | ⟨he, hlt⟩
      · rw [he]
        simp only [Nat.zero_add]
        exact clt_irrefl _
      · rw [he]
        simpa [Nat.zero_add] using hlt
    refine ⟨?_, ?_, ?_⟩
    · rcases hi with req | ⟨u', hu', req⟩
      · rcases hcases with ⟨he, -⟩ | ⟨he, -⟩
        · refine Or.inr ⟨u, List.mem_cons_self u us, ?_⟩
          rw [req, he, Nat.zero_add]
        · exact Or.inl (req.trans he)
      · exact Or.inr ⟨u', List.mem_cons_of_mem u hu', req⟩
    · intro u' hu'
      rcases List.mem_cons.1 hu' with rfl | hmem
      · rcases hiii with hlt | req
        · exact clt_le_trans hlt hubound
        · rw [req]
          exact hubound
      · exact hii u' hmem
    · rcases hiii with hlt | req
      · rcases hcases with ⟨he, hlt2⟩ | ⟨he, -⟩
        · rw [he] at hlt
          exact Or.inl (clt_trans hlt hlt2)
        · rw [he] at hlt
          exact Or.inl hlt
      · rcases hcases with ⟨he, hlt2⟩ | ⟨he, -⟩
        · rw [req, he]
          exact Or.inl (by simpa using hlt2)
        · exact Or.inr (req.trans he)

/-- `bestPrev` over a non-empty seed layer returns the first-minimal
transition cost together with a predecessor attaining it. -/
lemma bestPrev_seed_spec (k : KeyT) (v : VChord) (l : List VChord)
    (hne : l ≠ []) :
    ∃ u ∈ l, bestPrev k (seedLayer l) v = (some (cost k u v), some u) ∧
      ∀ u' ∈ l, cost k u v ≤ cost k u' v := by
  obtain ⟨hi, hii, -⟩ :=
    foldl_dpStep_seed k v l (none, none) (bestPrev k (seedLayer l) v)
      (bestPrev_eq_foldl k (seedLayer l) v).symm
  rcases hi with req | ⟨u, hu, req⟩
  · exfalso
    obtain ⟨u0, hu0⟩ := List.exists_mem_of_ne_nil l hne
    have := hii u0 hu0
    rw [req] at this
    simp [clt] at this
  · refine ⟨u, hu, req, fun u' hu' => ?_⟩
    have := hii u' hu'
    rw [req] at this
    simp only [clt, decide_eq_false_iff_not] at this
    omega

/-- The body of the final `min(dp[-1].items(), ...)` fold. -/
def minStep (best x : Entry) : Entry :=
  if clt x.2.1 best.2.1 then x else best

lemma minByCost_cons (e : Entry) (rest : List Entry) :
    minByCost (e :: rest) = some (rest.foldl minStep e) := rfl

/-- Invariant of the final minimization fold: the result is an element
(or the seed) and a lower bound of everything folded over. -/
lemma foldl_minStep_spec :
    ∀ (rest : List Entry) (acc r : Entry), rest.foldl minStep acc = r →
    (r = acc ∨ r ∈ rest) ∧ (∀ x ∈ rest, clt x.2.1 r.2.1 = false) ∧
    (clt r.2.1 acc.2.1 = true ∨ r = acc) := by
  intro rest
  induction rest with
  | nil =>
    intro acc r hr
    simp only [List.foldl_nil] at hr
    subst hr
    exact ⟨Or.inl rfl, by simp, Or.inr rfl⟩
  | cons x xs ih =>
    intro acc r hr
    simp only [List.foldl_cons] at hr
    obtain ⟨hi, hii, hiii⟩ := ih (minStep acc x) r hr
    have hcases : (minStep acc x = x ∧ clt x.2.1 acc.2.1 = true) ∨
        (minStep acc x = acc ∧ clt x.2.1 acc.2.1 = false) := by
      unfold minStep
      split
      · exact Or.inl ⟨rfl, by assumption⟩
      · rename_i hcond
        exact Or.inr ⟨rfl, by simpa using hcond⟩
    have hxbound : clt x.2.1 (minStep acc x).2.1 = false := by
      rcases hcases with ⟨he, -⟩ | ⟨he, hlt⟩
      · rw [he]
        exact clt_irrefl _
      · rw [he]
        exact hlt
    refine ⟨?_, ?_, ?_⟩
    · rcases hi with req | hmem
      · rcases hcases with ⟨he, -⟩ | ⟨he, -⟩
        · exact Or.inr (by rw [req, he]; exact List.mem_cons_self x xs)
        · exact Or.inl (req.trans he)
      · exact Or.inr (List.mem_cons_of_mem x hmem)
    · intro x' hx'
      rcases List.mem_cons.1 hx' with rfl | hmem
      · rcases hiii with hlt | req
        · exact clt_le_trans hlt hxbound
        · rw [req]
          exact hxbound
      · exact hii x' hmem
    · rcases hiii with hlt | req
      · rcases hcases with ⟨he, hlt2⟩ | ⟨he, -⟩
        · rw [he] at hlt
          exact Or.inl (clt_trans hlt hlt2)
        · rw [he] at hlt
          exact Or.inl hlt
      · rcases hcases with ⟨he, hlt2⟩ | ⟨he, -⟩
        · rw [req, he]
          exact Or.inl hlt2
        · exact Or.inr (req.trans he)

/-- `minByCost` of a non-empty layer returns a member entry whose cost
is minimal (first minimum in iteration order). -/
lemma minByCost_spec (l : List Entry) (hne : l ≠ []) :
    ∃ e ∈ l, minByCost l = some e ∧ ∀ x ∈ l, clt x.2.1 e.2.1 = false := by
  match l, hne with
  | e0 :: rest, _ =>
    obtain ⟨hi, hii, hiii⟩ :=
      foldl_minStep_spec rest e0 (rest.foldl minStep e0) rfl
    refine ⟨rest.foldl minStep e0, ?_, minByCost_cons e0 rest, ?_⟩
    · rcases hi with req | hmem
      · rw [req]
        exact List.mem_cons_self e0 rest
      · exact List.mem_cons_of_mem e0 hmem
    · intro x hx
      rcases List.mem_cons.1 hx with rfl | hmem
      · rcases hiii with hlt | req
        · exact clt_asymm hlt
        · rw [req]
          exact clt_irrefl _
      · exact hii x hmem

/-- Entries of a DP layer built by mapping over the voicing list are
determined by their key. -/
lemma mem_map_entry {g : VChord → Cost × Option VChord} {l : List VChord}
    {e : Entry} (he : e ∈ l.map (fun v => (v, (g v).1, (g v).2))) :
    e.1 ∈ l ∧ e = (e.1, (g e.1).1, (g e.1).2) := by
  obtain ⟨v, hv, hveq⟩ := List.mem_map.1 he
  cases hveq
  exact ⟨hv, rfl⟩

/-- Backtrace lookup: any key present in a layer is found, and the found
entry shares that key. -/
lemma find?_entry {l : List Entry} {e : Entry} (he : e ∈ l) :
    ∃ y ∈ l, l.find? (fun pe => decide (pe.1 = e.1)) = some y ∧ y.1 = e.1 := by
  have hs : (l.find? (fun pe => decide (pe.1 = e.1))).isSome := by
    rw [List.find?_isSome]
    exact ⟨e, he, by simp⟩
  obtain ⟨y, hy⟩ := Option.isSome_iff_exists.1 hs
  refine ⟨y, List.mem_of_find?_eq_some hy, hy, ?_⟩
  simpa using List.find?_some hy

lemma backtraceGo_nil (cur : Option VChord) (acc : List VChord) :
    backtraceGo [] cur acc = .ok acc.reverse := rfl

/-- One backtrace step when the current chord is found in the layer. -/
lemma backtraceGo_cons_some (layer : List Entry) (earlier : List (List Entry))
    (c : VChord) (acc : List VChord) (y : Entry)
    (hfind : layer.find? (fun pe => decide (pe.1 = c)) = some y) :
    backtraceGo (layer :: earlier) (some c) acc =
      backtraceGo earlier y.2.2 (acc ++ [c]) := by
  simp only [backtraceGo, hfind]

/-- The best cost and predecessor computed for a voicing of the second
chord over the seeded first layer. -/
def dpG (k : KeyT) (d0 : ChordDesc) (v : VChord) : Cost × Option VChord :=
  bestPrev k (seedLayer (voiceChord d0)) v

/-- C2: for a 2-chord progression whose voicing sets are both non-empty,
`voiceProgression` returns a 2-chord sequence together with a total cost
that equals the minimum of `cost k u v` over all voicing pairs, and the
returned sequence attains that minimum. -/
theorem voiceProgression_two_chord_optimal (k : KeyT) (d0 d1 : ChordDesc)
    (h0 : voiceChord d0 ≠ []) (h1 : voiceChord d1 ≠ []) :
    ∃ u v m, voiceProgression k [d0, d1] = .ok ([u, v], some m) ∧
      u ∈ voiceChord d0 ∧ v ∈ voiceChord d1 ∧ cost k u v = m ∧
      ∀ u' ∈ voiceChord d0, ∀ v' ∈ voiceChord d1, m ≤ cost k u' v' := by
  have hL1ne : (voiceChord d1).map
      (fun v => (v, (dpG k d0 v).1, (dpG k d0 v).2)) ≠ [] := by
    intro hc
    exact h1 (List.map_eq_nil.1 hc)
  obtain ⟨e, heMem, heMin, hmin⟩ := minByCost_spec _ hL1ne
  obtain ⟨hv1, heEq⟩ := mem_map_entry (g := dpG k d0) heMem
  obtain ⟨u, huMem, hbp, hopt⟩ := bestPrev_seed_spec k e.1 (voiceChord d0) h0
  have hge : dpG k d0 e.1 = (some (cost k u e.1), some u) := hbp
  have heFull : e = (e.1, some (cost k u e.1), some u) := by
    rw [heEq, hge]
  have hglobal : ∀ u' ∈ voiceChord d0, ∀ v' ∈ voiceChord d1,
      cost k u e.1 ≤ cost k u' v' := by
    intro u' hu' v' hv'
    obtain ⟨u'', hu''M, hbp', hopt'⟩ :=
      bestPrev_seed_spec k v' (voiceChord d0) h0
    have hmem' : (v', (dpG k d0 v').1, (dpG k d0 v').2) ∈
        (voiceChord d1).map (fun v => (v, (dpG k d0 v).1, (dpG k d0 v).2)) :=
      List.mem_map.2 ⟨v', hv', rfl⟩
    have h2 := hmin _ hmem'
    have hcv' : (dpG k d0 v').1 = some (cost k u'' v') := by
      show (bestPrev k (seedLayer (voiceChord d0)) v').1 = _
      rw [hbp']
    rw [heFull] at h2
    dsimp only at h2
    rw [hcv'] at h2
    simp only [clt, decide_eq_false_iff_not] at h2
    have := hopt' u' hu'
    omega
  refine ⟨u, e.1, cost k u e.1, ?_, huMem, hv1, rfl, hglobal⟩
  have hdp : dpLayers k [d0, d1] =
      [seedLayer (voiceChord d0),
        (voiceChord d1).map (fun v => (v, (dpG k d0 v).1, (dpG k d0 v).2))] :=
    rfl
  have hgl : (dpLayers k [d0, d1]).getLast? =
      some ((voiceChord d1).map
        (fun v => (v, (dpG k d0 v).1, (dpG k d0 v).2))) := by
    rw [hdp]
    rfl
  have hrev : (dpLayers k [d0, d1]).reverse =
      [(voiceChord d1).map (fun v => (v, (dpG k d0 v).1, (dpG k d0 v).2)),
        seedLayer (voiceChord d0)] := by
    rw [hdp]
    rfl
  obtain ⟨y, hyMem, hyFind, hyKey⟩ := find?_entry heMem
  have hyEq : y = (e.1, some (cost k u e.1), some u) := by
    obtain ⟨-, hy2⟩ := mem_map_entry (g := dpG k d0) hyMem
    rw [hy2, hyKey, hge]
  have huSeed : ((u : VChord), (some 0 : Cost), (none : Option VChord)) ∈
      seedLayer (voiceChord d0) := List.mem_map.2 ⟨u, huMem, rfl⟩
  obtain ⟨y', hy'Mem, hy'Find, hy'Key⟩ := find?_entry huSeed
  have hy'Eq : y' = (u, some 0, none) := by
    obtain ⟨v0, hv0, hveq⟩ := List.mem_map.1 hy'Mem
    cases hveq
    dsimp only at hy'Key
    rw [hy'Key]
  have hback : backtraceGo
      [(voiceChord d1).map (fun v => (v, (dpG k d0 v).1, (dpG k d0 v).2)),
        seedLayer (voiceChord d0)] (some e.1) [] = .ok [u, e.1] := by
    rw [backtraceGo_cons_some _ _ _ _ _ hyFind, hyEq]
    show backtraceGo [seedLayer (voiceChord d0)] (some u) [e.1] = _
    rw [backtraceGo_cons_some _ _ _ _ _ hy'Find, hy'Eq]
    rfl
  have hprog : voiceProgression k [d0, d1] =
      (backtraceGo (dpLayers k [d0, d1]).reverse (some e.1) []).map
        (fun chords => (chords, e.2.1)) := by
    simp only [voiceProgression]
    rw [hgl]
    dsimp only
    rw [heMin]
  have hc21 : e.2.1 = some (cost k u e.1) := by
    rw [heFull]
  rw [hprog, hrev, hback, hc21]
  rfl

/-- Witness for C2 at a concrete 2-chord progression with non-empty
voicing sets. -/
theorem voiceProgression_two_chord_optimal_witness :
    (voiceChord descW1 ≠ [] ∧ voiceChord descW1 ≠ []) ∧
    (∃ u v m, voiceProgression kC [descW1, descW1] = .ok ([u, v], some m) ∧
      u ∈ voiceChord descW1 ∧ v ∈ voiceChord descW1 ∧ cost kC u v = m ∧
      ∀ u' ∈ voiceChord descW1, ∀ v' ∈ voiceChord descW1,
        m ≤ cost kC u' v') := by
  have hne : voiceChord descW1 ≠ [] := by decide
  exact ⟨⟨hne, hne⟩,
    voiceProgression_two_chord_optimal kC descW1 descW1 hne hne⟩

/-! ### C3: behaviour on infeasible progressions -/

/-- All entries of a DP layer carry infinite cost and no predecessor
(the state every layer after an empty one ends up in). -/
def Qlayer (l : List Entry) : Prop := ∀ e ∈ l, e.2.1 = none ∧ e.2.2 = none

lemma foldl_dpStep_none (k : KeyT) (v : VChord) :
    ∀ (l : List Entry), Qlayer l →
    l.foldl (dpStep k v) (none, none) = (none, none) := by
  intro l
  induction l with
  | nil => intro _; rfl
  | cons pe pes ih =>
    intro hq
    have h1 : pe.2.1 = none := (hq pe (List.mem_cons_self pe pes)).1
    have hstep : dpStep k v (none, none) pe = (none, none) := by
      unfold dpStep
      rw [h1]
      rfl
    rw [List.foldl_cons, hstep]
    exact ih (fun e he => hq e (List.mem_cons_of_mem pe he))

/-- Folding over an empty or all-infinite previous layer keeps the
`(float('inf'), None)` seed. -/
lemma bestPrev_none (k : KeyT) (prev : List Entry) (v : VChord)
    (h : prev = [] ∨ Qlayer prev) : bestPrev k prev v = (none, none) := by
  rw [bestPrev_eq_foldl]
  rcases h with rfl | hq
  · rfl
  · exact foldl_dpStep_none k v prev hq

/-- A layer built over an empty or all-infinite previous layer is
all-infinite. -/
lemma Qlayer_built (k : KeyT) (prev : List Entry) (d : ChordDesc)
    (h : prev = [] ∨ Qlayer prev) :
    Qlayer ((voiceChord d).map
      (fun v => (v, (bestPrev k prev v).1, (bestPrev k prev v).2))) := by
  intro e he
  obtain ⟨-, he2⟩ := mem_map_entry (g := fun v => bestPrev k prev v) he
  have hb := bestPrev_none k prev e.1 h
  rw [he2]
  dsimp only
  rw [hb]
  exact ⟨rfl, rfl⟩

/-- Once a layer is empty or all-infinite, every later layer is
all-infinite. -/
lemma buildRest_Q (k : KeyT) : ∀ (ds : List ChordDesc) (prev : List Entry),
    (prev = [] ∨ Qlayer prev) → ∀ l ∈ buildRest k prev ds, Qlayer l := by
  intro ds
  induction ds with
  | nil =>
    intro prev h l hl
    simp [buildRest] at hl
  | cons d rest ih =>
    intro prev h l hl
    simp only [buildRest] at hl
    rcases List.mem_cons.1 hl with rfl | hmem
    · exact Qlayer_built k prev d h
    · exact ih _ (Or.inr (Qlayer_built k prev d h)) l hmem

lemma mem_of_getLast? {α : Type} :
    ∀ {l : List α} {a : α}, l.getLast? = some a → a ∈ l := by
  intro l
  induction l with
  | nil => intro a h; cases h
  | cons x xs ih =>
    intro a h
    cases xs with
    | nil =>
      rw [List.getLast?_singleton] at h
      cases h
      exact List.mem_cons_self x []
    | cons y ys =>
      rw [List.getLast?_cons_cons] at h
      exact List.mem_cons_of_mem x (ih h)

lemma cons_getLast?_isSome {α : Type} (a : α) (l : List α) :
    ∃ b, (a :: l).getLast? = some b := by
  induction l generalizing a with
  | nil => exact ⟨a, rfl⟩
  | cons x xs ih =>
    obtain ⟨b, hb⟩ := ih x
    exact ⟨b, by rw [List.getLast?_cons_cons]; exact hb⟩

/-- If some chord of the remaining progression has no voicings, the last
layer built for it is empty or all-infinite. -/
lemma buildRest_last_after_empty (k : KeyT) :
    ∀ (ds : List ChordDesc) (prev : List Entry),
    (∃ d ∈ ds, voiceChord d = []) →
    ∀ l, (buildRest k prev ds).getLast? = some l → l = [] ∨ Qlayer l := by
  intro ds
  induction ds with
  | nil =>
    intro prev hex l hl
    simp at hex
  | cons d rest ih =>
    intro prev hex l hl
    simp only [buildRest] at hl
    cases hrest : rest with
    | nil =>
      subst hrest
      simp only [buildRest] at hl
      rw [List.getLast?_singleton] at hl
      cases hl
      obtain ⟨d', hd', hempty⟩ := hex
      have : d' = d := by simpa using hd'
      subst this
      left
      rw [hempty]
      rfl
    | cons d2 rest2 =>
      subst hrest
      simp only [buildRest] at hl
      rw [List.getLast?_cons_cons] at hl
      obtain ⟨d', hd', hempty⟩ := hex
      rcases List.mem_cons.1 hd' with rfl | hmem
      · right
        have hcur : ((voiceChord d').map (fun v =>
            (v, (bestPrev k prev v).1, (bestPrev k prev v).2))) = [] := by
          rw [hempty]
          rfl
        refine buildRest_Q k (d2 :: rest2) _ (Or.inl hcur) l ?_
        have := mem_of_getLast? (l := buildRest k ((voiceChord d').map (fun v =>
            (v, (bestPrev k prev v).1, (bestPrev k prev v).2))) (d2 :: rest2)) hl
        simpa [buildRest] using this
      · exact ih ((voiceChord d).map (fun v =>
            (v, (bestPrev k prev v).1, (bestPrev k prev v).2)))
          ⟨d', hmem, hempty⟩ l (by simpa [buildRest] using hl)

lemma buildRest_length (k : KeyT) :
    ∀ (ds : List ChordDesc) (prev : List Entry),
    (buildRest k prev ds).length = ds.length := by
  intro ds
  induction ds with
  | nil => intro prev; rfl
  | cons d rest ih =>
    intro prev
    simp only [buildRest, List.length_cons]
    rw [ih]

/-- If some chord of a non-empty progression has an empty voicing set
and the final DP layer is non-empty, then the final layer is
all-infinite (cost `inf`, predecessor `None` everywhere). -/
lemma dp_last_Q (k : KeyT) (d : ChordDesc) (rest : List ChordDesc)
    (last : List Entry)
    (hlast : (dpLayers k (d :: rest)).getLast? = some last)
    (hex : ∃ d' ∈ d :: rest, voiceChord d' = [])
    (hle : last ≠ []) :
    rest ≠ [] ∧ Qlayer last := by
  have hdp : dpLayers k (d :: rest) =
      seedLayer (voiceChord d) ::
        buildRest k (seedLayer (voiceChord d)) rest := rfl
  rw [hdp] at hlast
  obtain ⟨d', hd', hempty⟩ := hex
  rcases List.mem_cons.1 hd' with rfl | hmem
  · have hL0nil : seedLayer (voiceChord d') = [] := by
      rw [hempty]
      rfl
    cases hrest : rest with
    | nil =>
      subst hrest
      exfalso
      apply hle
      have h2 : (seedLayer (voiceChord d') ::
          buildRest k (seedLayer (voiceChord d')) []).getLast? =
          some (seedLayer (voiceChord d')) := by
        simp [buildRest]
      rw [h2] at hlast
      exact (Option.some.inj hlast).symm.trans hL0nil
    | cons d2 rest2 =>
      subst hrest
      refine ⟨by simp, ?_⟩
      refine buildRest_Q k (d2 :: rest2) (seedLayer (voiceChord d'))
        (Or.inl hL0nil) last ?_
      simp only [buildRest] at hlast ⊢
      rw [List.getLast?_cons_cons] at hlast
      exact mem_of_getLast? hlast
  · cases hrest : rest with
    | nil =>
      subst hrest
      simp at hmem
    | cons d2 rest2 =>
      subst hrest
      refine ⟨by simp, ?_⟩
      have h2 : (buildRest k (seedLayer (voiceChord d))
          (d2 :: rest2)).getLast? = some last := by
        simp only [buildRest] at hlast ⊢
        rw [List.getLast?_cons_cons] at hlast
        exact hlast
      rcases buildRest_last_after_empty k (d2 :: rest2)
          (seedLayer (voiceChord d)) ⟨d', hmem, hempty⟩ last h2 with hnil | hq
      · exact absurd hnil hle
      · exact hq

/-- C3 (amended): `voiceProgression` fails whenever the input sequence
is empty or some chord yields an empty voicing set — but with a built-in
Python error (`IndexError` for the empty input, `ValueError` when the
final DP layer is empty, `KeyError` when the backtrace hits the `None`
predecessor left by an earlier empty layer), not with an
`InfeasibleProgressionError`: the source defines no such exception and
reports no progression index. -/
theorem voiceProgression_infeasible (k : KeyT) (descs : List ChordDesc)
    (h : descs = [] ∨ ∃ d ∈ descs, voiceChord d = []) :
    voiceProgression k descs = .error .indexError ∨
    voiceProgression k descs = .error .valueError ∨
    voiceProgression k descs = .error .keyError := by
  rcases h with rfl | hex
  · exact Or.inl rfl
  rcases descs with - | ⟨d, rest⟩
  · simp at hex
  obtain ⟨last, hlast0⟩ := cons_getLast?_isSome (seedLayer (voiceChord d))
    (buildRest k (seedLayer (voiceChord d)) rest)
  have hlast : (dpLayers k (d :: rest)).getLast? = some last := hlast0
  by_cases hle : last = []
  · right; left
    simp only [voiceProgression]
    rw [hlast]
    dsimp only
    rw [hle]
    rfl
  · obtain ⟨hrestne, hQ⟩ := dp_last_Q k d rest last hlast hex hle
    obtain ⟨e, heMem, heMin, -⟩ := minByCost_spec last hle
    right; right
    have hprog : voiceProgression k (d :: rest) =
        (backtraceGo (dpLayers k (d :: rest)).reverse (some e.1) []).map
          (fun chords => (chords, e.2.1)) := by
      simp only [voiceProgression]
      rw [hlast]
      dsimp only
      rw [heMin]
    obtain ⟨r1, rt, hrevEq, hr1⟩ :
        ∃ r1 rt, (dpLayers k (d :: rest)).reverse = r1 :: rt ∧ r1 = last := by
      cases hrv : (dpLayers k (d :: rest)).reverse with
      | nil =>
        exfalso
        have hnil : dpLayers k (d :: rest) = [] := by
          have h2 := congrArg List.reverse hrv
          simpa using h2
        exact List.cons_ne_nil _ _ hnil
      | cons r1 rt =>
        refine ⟨r1, rt, rfl, ?_⟩
        have h1 : (dpLayers k (d :: rest)).reverse.head? = some last := by
          rw [List.head?_reverse]
          exact hlast
        rw [hrv, List.head?_cons] at h1
        exact Option.some.inj h1
    obtain ⟨r2, rt2, hrt⟩ : ∃ r2 rt2, rt = r2 :: rt2 := by
      cases hrt0 : rt with
      | nil =>
        exfalso
        subst hrt0
        have hlen : (dpLayers k (d :: rest)).reverse.length = 1 := by
          rw [hrevEq]
          rfl
        rw [List.length_reverse] at hlen
        have hlen2 : (dpLayers k (d :: rest)).length = 1 + rest.length := by
          rw [show dpLayers k (d :: rest) = seedLayer (voiceChord d) ::
            buildRest k (seedLayer (voiceChord d)) rest from rfl]
          simp [buildRest_length]
          omega
        have h0 : rest.length = 0 := by omega
        exact hrestne (List.length_eq_zero.1 h0)
      | cons r2 rt2 => exact ⟨r2, rt2, rfl⟩
    obtain ⟨y, hyMem, hyFind, -⟩ := find?_entry heMem
    have hy22 : y.2.2 = none := (hQ y hyMem).2
    have hbt : backtraceGo (dpLayers k (d :: rest)).reverse (some e.1) [] =
        .error .keyError := by
      rw [hrevEq, hr1, hrt]
      rw [backtraceGo_cons_some last (r2 :: rt2) e.1 [] y hyFind]
      rw [hy22]
      rfl
    rw [hprog, hbt]
    rfl

/-- C3 counterexample: on the empty progression the code raises
Python's `IndexError` (from `dp[-1]`), not the spec's
`InfeasibleProgressionError`. -/
theorem voiceProgression_empty_counterexample :
    voiceProgression kC ([] : List ChordDesc) = .error .indexError ∧
    isInfeasibleErr (voiceProgression kC ([] : List ChordDesc)) = false := by
  exact ⟨rfl, rfl⟩

/-- An artificial triad descriptor whose pitch class (chromatic offset
30) fits no octave of any voice range, so its voicing set is empty. -/
def descE : ChordDesc :=
  { noteNames := [⟨0, 30⟩, ⟨0, 30⟩, ⟨0, 30⟩], containsSeventh := false,
    inversion := 2, romanNumeral := "V64", root := ⟨0, 30⟩, third := ⟨0, 30⟩,
    fifth := ⟨0, 30⟩, seventh := none }

/-- Witness for C3 (amended) at a one-chord progression whose chord has
an empty voicing set. -/
theorem voiceProgression_infeasible_witness :
    (([descE] : List ChordDesc) = [] ∨
      ∃ d ∈ ([descE] : List ChordDesc), voiceChord d = []) ∧
    (voiceProgression kC [descE] = .error .indexError ∨
     voiceProgression kC [descE] = .error .valueError ∨
     voiceProgression kC [descE] = .error .keyError) := by
  have hempty : voiceChord descE = [] := by decide
  exact ⟨Or.inr ⟨descE, List.mem_singleton.2 rfl, hempty⟩,
    voiceProgression_infeasible kC [descE]
      (Or.inr ⟨descE, List.mem_singleton.2 rfl, hempty⟩)⟩
